import Mathlib

/-!
Verification of the `zeroarg` command-line argument tokenizer.

The Rust source (`src/lib.rs`) is shallowly embedded: a Rust `String` token
is a `List Char` (the order of `chars()`), the mutable `Vec<Argument>`
output becomes an accumulator argument, the `CharIter` lookahead scanner is
the remaining `List Char` (its `current()` is the head, `next()` drops it),
and `Result<(), Error>` with a mutated vector becomes
`Except Error (List Argument)` returning the updated accumulator.
Each Rust `loop` is embedded as a recursive `..._loop` function whose
state is the loop-mutated locals.
-/

namespace Zeroarg

/-- The `Argument` type from the source: a parsed command line argument. -/
inductive Argument where
  | Operand (text : List Char)
  | Attribute (name : List Char) (value : List Char)
  | Flag (name : List Char)
deriving DecidableEq, Repr

/-- The `Error` type from the source. -/
inductive Error where
  | EmptyAttribute
  | EmptyFlag
deriving DecidableEq, Repr

/-- Function `parse_attribute_value`: consume every remaining character of the token
as the attribute value and append `Attribute(attribute, value)`.
The loop copies the whole remaining iterator into `value`, so the result is
`arguments` with `Attribute attribute iter` appended. -/
def parse_attribute_value (arguments : List Argument) (iter : List Char)
    (attr : List Char) : List Argument :=
  arguments ++ [Argument.Attribute attr iter]

/-- The `loop` of `parse_short_options`: read `c`, advance; `=` errors;
otherwise look at the next character `d`: on `=` consume it and capture the
attribute value with name `[c]`, else emit `Flag [c]` and continue. -/
def parse_short_options (arguments : List Argument) (iter : List Char) :
    Except Error (List Argument) :=
  match iter with
  | [] => .ok arguments
  | c :: rest =>
    if c = '=' then
      .error Error.EmptyAttribute
    else
      match rest with
      | d :: rest2 =>
        if d = '=' then .ok (parse_attribute_value arguments rest2 [c])
        else parse_short_options (arguments ++ [Argument.Flag [c]]) rest
      | [] => .ok (arguments ++ [Argument.Flag [c]])

/-- The body of `parse_option`, with the mutual recursion between the
function entry and its `loop` fused into one structural recursion on the
iterator. The mode `none` is the function entry (no name character
collected yet); `some option` is the `loop` with accumulated name
`option`. Every recursive call consumes exactly one character. -/
def parse_option_aux (arguments : List Argument) (st : Option (List Char))
    (iter : List Char) : Except Error (List Argument) :=
  match iter with
  | [] =>
    match st with
    | none => .error Error.EmptyFlag
    | some option => .ok (arguments ++ [Argument.Flag option])
  | c :: rest =>
    match st with
    | none =>
      if c = '+' then .error Error.EmptyFlag
      else if c = '=' then .error Error.EmptyAttribute
      else parse_option_aux arguments (some [c]) rest
    | some option =>
      if c = '+' then
        parse_option_aux (arguments ++ [Argument.Flag option]) none rest
      else if c = '=' then
        .ok (parse_attribute_value arguments rest option)
      else
        parse_option_aux arguments (some (option ++ [c])) rest

/-- Function `parse_option`: first character starts the name (`+` is `EmptyFlag`,
`=` is `EmptyAttribute`, exhausted is `EmptyFlag`), then the loop.
On a `+` in the loop it emits `Flag option` and re-enters itself on the
remainder of the token. -/
def parse_option (arguments : List Argument) (iter : List Char) :
    Except Error (List Argument) :=
  parse_option_aux arguments none iter

/-- The `loop` of `parse_option` with the accumulated name `option`. -/
def parse_option_loop (arguments : List Argument) (option : List Char)
    (iter : List Char) : Except Error (List Argument) :=
  parse_option_aux arguments (some option) iter

/-- The `loop` of `parse_argument` with the accumulated text `argument`:
identical to `parse_option_loop` except that exhaustion emits
`Operand argument` instead of a flag. -/
def parse_argument_loop (arguments : List Argument) (argument : List Char)
    (iter : List Char) : Except Error (List Argument) :=
  match iter with
  | [] => .ok (arguments ++ [Argument.Operand argument])
  | c :: rest =>
    if c = '+' then
      parse_option (arguments ++ [Argument.Flag argument]) rest
    else if c = '=' then
      .ok (parse_attribute_value arguments rest argument)
    else
      parse_argument_loop arguments (argument ++ [c]) rest

/-- Function `parse_argument`: like `parse_option` but an exhausted iterator at
entry emits `Operand ""`, and the loop's terminal emits an operand. -/
def parse_argument (arguments : List Argument) (iter : List Char) :
    Except Error (List Argument) :=
  match iter with
  | [] => .ok (arguments ++ [Argument.Operand []])
  | c :: rest =>
    if c = '+' then .error Error.EmptyFlag
    else if c = '=' then .error Error.EmptyAttribute
    else parse_argument_loop arguments [c] rest

/-- The `for arg in &mut args` classification loop of `parse_arguments`.
A `break` leaves the loop with the rest of the token sequence unconsumed;
the second `for` then appends each remaining raw token as an `Operand`. -/
def parse_arguments_loop (arguments : List Argument)
    (args : List (List Char)) : Except Error (List Argument) :=
  match args with
  | [] => .ok arguments
  | arg :: rest =>
    match arg with
    | [] => parse_arguments_loop (arguments ++ [Argument.Operand []]) rest
    | c :: iter =>
      if c = '-' then
        match iter with
        | [] => .ok (arguments ++ rest.map Argument.Operand)
        | d :: iter2 =>
          if d = '-' then
            match iter2 with
            | [] => .ok (arguments ++ rest.map Argument.Operand)
            | _ :: _ => do
              let arguments ← parse_option arguments iter2
              parse_arguments_loop arguments rest
          else do
            let arguments ← parse_short_options arguments iter
            parse_arguments_loop arguments rest
      else if c = '+' then
        match iter with
        | [] => .ok (arguments ++ rest.map Argument.Operand)
        | _ :: _ => do
          let arguments ← parse_option arguments iter
          parse_arguments_loop arguments rest
      else do
        let arguments ← parse_argument arguments arg
        parse_arguments_loop arguments rest

/-- Function `parse_arguments`, the public entry point. -/
def parse_arguments (args : List (List Char)) :
    Except Error (List Argument) :=
  parse_arguments_loop [] args

/-- The data-model invariant of section 3 of the spec: an `Attribute`'s
name and a `Flag`'s name are non-empty; an `Operand`'s text may be
anything. -/
def namesNonEmpty : Argument → Prop
  | Argument.Operand _ => True
  | Argument.Attribute n _ => n ≠ []
  | Argument.Flag n => n ≠ []

/-- If the argument is a `Flag`, its name is exactly one character. -/
def shortFlagOne (a : Argument) : Prop :=
  ∀ n, a = Argument.Flag n → n.length = 1

/-- Fuelled variant of `parse_option_aux`: identical branch for branch,
but every recursive call spends one unit of fuel, and exhausted fuel
returns `none`. Used to show the recursion depth of `parse_option` is
bounded by the token length. -/
def parse_option_fuel (fuel : Nat) (arguments : List Argument)
    (st : Option (List Char)) (iter : List Char) :
    Option (Except Error (List Argument)) :=
  match fuel with
  | 0 => none
  | fuel + 1 =>
    match iter with
    | [] =>
      match st with
      | none => some (.error Error.EmptyFlag)
      | some option => some (.ok (arguments ++ [Argument.Flag option]))
    | c :: rest =>
      match st with
      | none =>
        if c = '+' then some (.error Error.EmptyFlag)
        else if c = '=' then some (.error Error.EmptyAttribute)
        else parse_option_fuel fuel arguments (some [c]) rest
      | some option =>
        if c = '+' then
          parse_option_fuel fuel (arguments ++ [Argument.Flag option])
            none rest
        else if c = '=' then
          some (.ok (parse_attribute_value arguments rest option))
        else
          parse_option_fuel fuel arguments (some (option ++ [c])) rest

/-- The `?` operator on a successful call: bind on `Except.ok`. -/
@[simp]
theorem ok_bind (a : List Argument)
    (f : List Argument → Except Error (List Argument)) :
    (Except.ok a >>= f : Except Error (List Argument)) = f a := rfl

/-- The `?` operator on a failed call: bind propagates `Except.error`. -/
@[simp]
theorem error_bind (e : Error)
    (f : List Argument → Except Error (List Argument)) :
    (Except.error e >>= f : Except Error (List Argument)) =
      Except.error e := rfl

/-- C1: encountering a token that is exactly `-`, `--` or `+` during
classification stops the loop without emitting that token, appends every
remaining raw token verbatim as an `Operand` (no reclassification), and
returns successfully with the arguments emitted so far preserved; in
particular `["--foo", "--", "-x", "plain"]` parses to
`[Flag "foo", Operand "-x", Operand "plain"]`. -/
theorem terminator_passthrough (acc : List Argument)
    (rest : List (List Char)) :
    parse_arguments_loop acc (['-'] :: rest) =
      .ok (acc ++ rest.map Argument.Operand) ∧
    parse_arguments_loop acc (['-', '-'] :: rest) =
      .ok (acc ++ rest.map Argument.Operand) ∧
    parse_arguments_loop acc (['+'] :: rest) =
      .ok (acc ++ rest.map Argument.Operand) ∧
    parse_arguments
        [['-', '-', 'f', 'o', 'o'], ['-', '-'], ['-', 'x'],
          ['p', 'l', 'a', 'i', 'n']] =
      .ok [Argument.Flag ['f', 'o', 'o'], Argument.Operand ['-', 'x'],
        Argument.Operand ['p', 'l', 'a', 'i', 'n']] :=
  ⟨rfl, rfl, rfl, rfl⟩

/-- C2 counterexample: the claim says `["+"]` parses to `Err(EmptyFlag)`
and `["--a+=v"]` parses to `Err(EmptyFlag)`; in fact `["+"]` parses to
`Ok([])` (bare `+` is a terminator) and `["--a+=v"]` fails with
`EmptyAttribute`, not `EmptyFlag`. -/
theorem empty_flag_claim_counterexample :
    parse_arguments [['+']] = .ok [] ∧
    parse_arguments [['+']] ≠ .error Error.EmptyFlag ∧
    parse_arguments [['-', '-', 'a', '+', '=', 'v']] =
      .error Error.EmptyAttribute ∧
    parse_arguments [['-', '-', 'a', '+', '=', 'v']] ≠
      .error Error.EmptyFlag :=
  ⟨rfl, by simp [parse_arguments, parse_arguments_loop], rfl,
    by simp [parse_arguments, parse_arguments_loop, parse_option,
      parse_option_aux]⟩

/-- C2 (amended): `["--a+"]` parses to `Err(EmptyFlag)` (chain separator
with nothing after it); `["+"]` parses to `Ok([])` because a bare `+` is a
terminator; `["--a+=v"]` parses to `Err(EmptyAttribute)` (the `=` right
after the chain separator is an empty attribute name). -/
theorem empty_flag_errors :
    parse_arguments [['-', '-', 'a', '+']] = .error Error.EmptyFlag ∧
    parse_arguments [['+']] = .ok [] ∧
    parse_arguments [['-', '-', 'a', '+', '=', 'v']] =
      .error Error.EmptyAttribute :=
  ⟨rfl, rfl, rfl⟩

/-- C3 counterexample: the claim quantifies over every single character
`c`, but `["-" + "-"]` is the bare `--` terminator and parses to `Ok([])`,
not `[Flag("-")]`, and `["-" + "="]` fails with `EmptyAttribute`. -/
theorem dash_char_claim_counterexample :
    parse_arguments [['-', '-']] = .ok [] ∧
    parse_arguments [['-', '-']] ≠ .ok [Argument.Flag ['-']] ∧
    parse_arguments [['-', '=']] = .error Error.EmptyAttribute :=
  ⟨rfl, by simp [parse_arguments, parse_arguments_loop], rfl⟩

/-- C3 (amended): for every single character `c` other than `-` and `=`,
parsing `["-" + c]` yields exactly `[Flag(c)]`. -/
theorem dash_single_char_flag (c : Char) (hd : c ≠ '-') (he : c ≠ '=') :
    parse_arguments [['-', c]] = .ok [Argument.Flag [c]] := by
  simp [parse_arguments, parse_arguments_loop, parse_short_options, hd, he]

/-- Witness for the amended C3 at `c = 'x'`. -/
theorem dash_single_char_flag_witness :
    parse_arguments [['-', 'x']] = .ok [Argument.Flag ['x']] :=
  dash_single_char_flag 'x' (by decide) (by decide)

/-- C5: an `=` read while the collected name is still empty fails with
`EmptyAttribute`, in all three positions (token start, short-option slot,
after a `--` or `+` prefix); concretely `["-="]`, `["--="]` and `["+="]`
each parse to `Err(EmptyAttribute)`. -/
theorem empty_attribute_errors (acc : List Argument) (rest : List Char) :
    parse_argument acc ('=' :: rest) = .error Error.EmptyAttribute ∧
    parse_short_options acc ('=' :: rest) = .error Error.EmptyAttribute ∧
    parse_option acc ('=' :: rest) = .error Error.EmptyAttribute ∧
    parse_arguments [['-', '=']] = .error Error.EmptyAttribute ∧
    parse_arguments [['-', '-', '=']] = .error Error.EmptyAttribute ∧
    parse_arguments [['+', '=']] = .error Error.EmptyAttribute :=
  ⟨rfl, rfl, rfl, rfl, rfl, rfl⟩

/-- C6: one token can decompose into several arguments: `["--a+b+c"]`
parses to `[Flag a, Flag b, Flag c]` (chaining), `["-abc"]` parses to
`[Flag a, Flag b, Flag c]` (bundling), and `["-ab=val"]` parses to
`[Flag a, Attribute b val]` (only the last bundled short flag takes a
value). -/
theorem token_decomposition :
    parse_arguments [['-', '-', 'a', '+', 'b', '+', 'c']] =
      .ok [Argument.Flag ['a'], Argument.Flag ['b'], Argument.Flag ['c']] ∧
    parse_arguments [['-', 'a', 'b', 'c']] =
      .ok [Argument.Flag ['a'], Argument.Flag ['b'], Argument.Flag ['c']] ∧
    parse_arguments [['-', 'a', 'b', '=', 'v', 'a', 'l']] =
      .ok [Argument.Flag ['a'], Argument.Attribute ['b'] ['v', 'a', 'l']] :=
  ⟨rfl, rfl, rfl⟩

/-- The `loop` of `parse_option` on a remainder `n ++ "=" ++ v` whose name
part `n` is free of `+` and `=` appends `n` to the accumulated name and
captures `v` as the attribute value. -/
theorem parse_option_aux_attr :
    ∀ (n : List Char) (acc : List Argument) (opt v : List Char),
      '+' ∉ n → '=' ∉ n →
      parse_option_aux acc (some opt) (n ++ '=' :: v) =
        .ok (acc ++ [Argument.Attribute (opt ++ n) v]) := by
  intro n
  induction n with
  | nil =>
    intro acc opt v _ _
    simp [parse_option_aux, parse_attribute_value]
  | cons c n ih =>
    intro acc opt v hp he
    rw [List.mem_cons, not_or] at hp he
    have h1 : ¬(c = '+') := fun h => hp.1 h.symm
    have h2 : ¬(c = '=') := fun h => he.1 h.symm
    simp only [List.cons_append]
    simp only [parse_option_aux]
    simp only [h1, h2, if_false, ite_false]
    rw [ih acc (opt ++ [c]) v hp.2 he.2]
    simp

/-- Running `parse_option` on `n ++ "=" ++ v` with `n` non-empty and free of `+`
and `=` emits exactly `Attribute(n, v)`. -/
theorem parse_option_attr (acc : List Argument) (n v : List Char)
    (hne : n ≠ []) (hp : '+' ∉ n) (he : '=' ∉ n) :
    parse_option acc (n ++ '=' :: v) =
      .ok (acc ++ [Argument.Attribute n v]) := by
  cases n with
  | nil => exact absurd rfl hne
  | cons c n =>
    rw [List.mem_cons, not_or] at hp he
    have h1 : ¬(c = '+') := fun h => hp.1 h.symm
    have h2 : ¬(c = '=') := fun h => he.1 h.symm
    simp only [parse_option, List.cons_append, parse_option_aux]
    simp only [h1, h2, if_false, ite_false, List.append_eq]
    rw [parse_option_aux_attr n acc [c] v hp.2 he.2]
    simp

/-- C4 counterexample: the claim quantifies over every non-empty name
`n`, but for `n = "a+b"` (which contains a chain separator) the token
`"--a+b=v"` parses to `[Flag "a", Attribute "b" "v"]`, not to
`[Attribute "a+b" "v"]`. -/
theorem attribute_name_claim_counterexample :
    parse_arguments [['-', '-', 'a', '+', 'b', '=', 'v']] =
      .ok [Argument.Flag ['a'], Argument.Attribute ['b'] ['v']] ∧
    parse_arguments [['-', '-', 'a', '+', 'b', '=', 'v']] ≠
      .ok [Argument.Attribute ['a', '+', 'b'] ['v']] :=
  ⟨rfl, by simp [parse_arguments, parse_arguments_loop, parse_option,
    parse_option_aux, parse_attribute_value]⟩

/-- C4 (amended): for every non-empty name `n` containing neither `+` nor
`=`, and every value `v` (possibly empty, any characters including `=`),
parsing `["--" ++ n ++ "=" ++ v]` yields exactly `[Attribute(n, v)]`; the
whole remainder after the first unconsumed `=` is the value, verbatim. -/
theorem attribute_token (n v : List Char) (hne : n ≠ []) (hp : '+' ∉ n)
    (he : '=' ∉ n) :
    parse_arguments [['-', '-'] ++ (n ++ '=' :: v)] =
      .ok [Argument.Attribute n v] := by
  cases n with
  | nil => exact absurd rfl hne
  | cons c n =>
    have h3 := parse_option_attr [] (c :: n) v hne hp he
    simp only [List.cons_append, List.nil_append] at h3 ⊢
    simp [parse_arguments, parse_arguments_loop, h3]

/-- Witness for the amended C4 at `n = "name"`, `v = "v=x"`. -/
theorem attribute_token_witness :
    parse_arguments
        [['-', '-'] ++ (['n', 'a', 'm', 'e'] ++ '=' :: ['v', '=', 'x'])] =
      .ok [Argument.Attribute ['n', 'a', 'm', 'e'] ['v', '=', 'x']] :=
  attribute_token ['n', 'a', 'm', 'e'] ['v', '=', 'x'] (by decide)
    (by decide) (by decide)

/-- The `loop` of `parse_argument` on a remainder free of `+` and `=`
copies every character into the buffer and emits it as one `Operand`. -/
theorem parse_argument_loop_operand :
    ∀ (t : List Char) (acc : List Argument) (buf : List Char),
      '+' ∉ t → '=' ∉ t →
      parse_argument_loop acc buf t =
        .ok (acc ++ [Argument.Operand (buf ++ t)]) := by
  intro t
  induction t with
  | nil =>
    intro acc buf _ _
    simp [parse_argument_loop]
  | cons c t ih =>
    intro acc buf hp he
    rw [List.mem_cons, not_or] at hp he
    have h1 : ¬(c = '+') := fun h => hp.1 h.symm
    have h2 : ¬(c = '=') := fun h => he.1 h.symm
    simp only [parse_argument_loop]
    simp only [h1, h2, if_false, ite_false]
    rw [ih acc (buf ++ [c]) hp.2 he.2]
    simp

/-- Running `parse_argument` on a token free of `+` and `=` emits it as one
`Operand`, the empty token included. -/
theorem parse_argument_operand (acc : List Argument) (t : List Char)
    (hp : '+' ∉ t) (he : '=' ∉ t) :
    parse_argument acc t = .ok (acc ++ [Argument.Operand t]) := by
  cases t with
  | nil => simp [parse_argument]
  | cons c t =>
    rw [List.mem_cons, not_or] at hp he
    have h1 : ¬(c = '+') := fun h => hp.1 h.symm
    have h2 : ¬(c = '=') := fun h => he.1 h.symm
    simp only [parse_argument]
    simp only [h1, h2, if_false, ite_false]
    rw [parse_argument_loop_operand t acc [c] hp.2 he.2]
    simp

/-- C7: a token not starting with `-` or `+` and containing no `+` and no
`=` parses alone to exactly one `Operand` holding the token verbatim; the
empty token is such a token, so `[""]` parses to `[Operand("")]`. -/
theorem bare_token_operand (t : List Char) (h1 : t.head? ≠ some '-')
    (h2 : t.head? ≠ some '+') (hp : '+' ∉ t) (he : '=' ∉ t) :
    parse_arguments [t] = .ok [Argument.Operand t] := by
  cases t with
  | nil => rfl
  | cons c t =>
    have hc1 : ¬(c = '-') := fun h => h1 (by simp [h])
    have hc2 : ¬(c = '+') := fun h => h2 (by simp [h])
    have h3 := parse_argument_operand [] (c :: t) hp he
    simp only [List.nil_append] at h3
    simp [parse_arguments, parse_arguments_loop, hc1, hc2, h3]

/-- Witness for C7 at `t = "plain"` and `t = ""`. -/
theorem bare_token_operand_witness :
    parse_arguments [['p', 'l', 'a', 'i', 'n']] =
      .ok [Argument.Operand ['p', 'l', 'a', 'i', 'n']] ∧
    parse_arguments [[]] = .ok [Argument.Operand []] :=
  ⟨bare_token_operand ['p', 'l', 'a', 'i', 'n'] (by decide) (by decide)
      (by decide) (by decide),
    bare_token_operand [] (by decide) (by decide) (by decide) (by decide)⟩

/-- The `loop` of `parse_argument` on `s ++ "+" ++ r` with `s` free of `+`
and `=` emits the buffer and `s` as one `Flag` and re-enters the
long-option routine on `r`. -/
theorem parse_argument_loop_chain :
    ∀ (s : List Char) (acc : List Argument) (buf r : List Char),
      '+' ∉ s → '=' ∉ s →
      parse_argument_loop acc buf (s ++ '+' :: r) =
        parse_option (acc ++ [Argument.Flag (buf ++ s)]) r := by
  intro s
  induction s with
  | nil =>
    intro acc buf r _ _
    simp [parse_argument_loop]
  | cons c s ih =>
    intro acc buf r hp he
    rw [List.mem_cons, not_or] at hp he
    have h1 : ¬(c = '+') := fun h => hp.1 h.symm
    have h2 : ¬(c = '=') := fun h => he.1 h.symm
    simp only [List.cons_append, parse_argument_loop]
    simp only [h1, h2, if_false, ite_false, List.append_eq]
    rw [ih acc (buf ++ [c]) r hp.2 he.2]
    simp

/-- The `loop` of `parse_argument` on `s ++ "=" ++ r` with `s` free of `+`
and `=` emits one `Attribute` named by the buffer and `s`, valued `r`. -/
theorem parse_argument_loop_attr :
    ∀ (s : List Char) (acc : List Argument) (buf r : List Char),
      '+' ∉ s → '=' ∉ s →
      parse_argument_loop acc buf (s ++ '=' :: r) =
        .ok (acc ++ [Argument.Attribute (buf ++ s) r]) := by
  intro s
  induction s with
  | nil =>
    intro acc buf r _ _
    simp [parse_argument_loop, parse_attribute_value]
  | cons c s ih =>
    intro acc buf r hp he
    rw [List.mem_cons, not_or] at hp he
    have h1 : ¬(c = '+') := fun h => hp.1 h.symm
    have h2 : ¬(c = '=') := fun h => he.1 h.symm
    simp only [List.cons_append, parse_argument_loop]
    simp only [h1, h2, if_false, ite_false, List.append_eq]
    rw [ih acc (buf ++ [c]) r hp.2 he.2]
    simp

/-- Bind against the empty continuation of the dispatch loop: once the
token list is exhausted the accumulated result is returned unchanged. -/
theorem bind_ok_id (x : Except Error (List Argument)) :
    (x >>= fun a => Except.ok a) = x := by
  cases x <;> rfl

/-- C10: a bare token containing a `+` or `=` is not one `Operand`: with
`s` non-empty, `+`/`=`-free and not starting with `-` or `+`, parsing
`[s ++ "+" ++ r]` emits `Flag(s)` and parses `r` as a long-option chain,
and parsing `[s ++ "=" ++ r]` yields `[Attribute(s, r)]`; concretely
`["a+b"]` parses to `[Flag a, Flag b]` and `["a=b"]` to
`[Attribute a b]`. -/
theorem bare_token_special (s r : List Char) (hne : s ≠ [])
    (h1 : s.head? ≠ some '-') (h2 : s.head? ≠ some '+') (hp : '+' ∉ s)
    (he : '=' ∉ s) :
    parse_arguments [s ++ '+' :: r] =
      parse_option [Argument.Flag s] r ∧
    parse_arguments [s ++ '=' :: r] =
      .ok [Argument.Attribute s r] ∧
    parse_arguments [['a', '+', 'b']] =
      .ok [Argument.Flag ['a'], Argument.Flag ['b']] ∧
    parse_arguments [['a', '=', 'b']] =
      .ok [Argument.Attribute ['a'] ['b']] := by
  cases s with
  | nil => exact absurd rfl hne
  | cons c s =>
    have hc1 : ¬(c = '-') := fun h => h1 (by simp [h])
    have hc2 : ¬(c = '+') := fun h => h2 (by simp [h])
    rw [List.mem_cons, not_or] at hp he
    have h3 : ¬(c = '=') := fun h => he.1 h.symm
    refine ⟨?_, ?_, rfl, rfl⟩
    · have h4 := parse_argument_loop_chain s [] [c] r hp.2 he.2
      simp only [List.nil_append] at h4
      simp only [List.cons_append, parse_arguments, parse_arguments_loop,
        parse_argument]
      simp only [hc1, hc2, h3, if_false, ite_false]
      rw [h4]
      exact bind_ok_id _
    · have h4 := parse_argument_loop_attr s [] [c] r hp.2 he.2
      simp only [List.nil_append] at h4
      simp only [List.cons_append, parse_arguments, parse_arguments_loop,
        parse_argument]
      simp only [hc1, hc2, h3, if_false, ite_false]
      rw [h4]
      rfl

/-- Witness for C10 at `s = "a"`, `r = "b"`. -/
theorem bare_token_special_witness :
    parse_arguments [['a'] ++ '+' :: ['b']] =
      parse_option [Argument.Flag ['a']] ['b'] ∧
    parse_arguments [['a'] ++ '=' :: ['b']] =
      .ok [Argument.Attribute ['a'] ['b']] ∧
    parse_arguments [['a', '+', 'b']] =
      .ok [Argument.Flag ['a'], Argument.Flag ['b']] ∧
    parse_arguments [['a', '=', 'b']] =
      .ok [Argument.Attribute ['a'] ['b']] :=
  bare_token_special ['a'] ['b'] (by decide) (by decide) (by decide)
    (by decide) (by decide)

/-- Every argument the short-option routine appends past the accumulator
is a one-character-named `Flag` or `Attribute`. -/
theorem parse_short_options_ok :
    ∀ (iter : List Char) (acc res : List Argument),
      parse_short_options acc iter = .ok res →
      ∃ new, res = acc ++ new ∧
        ∀ a ∈ new, namesNonEmpty a ∧ shortFlagOne a := by
  intro iter
  induction iter with
  | nil =>
    intro acc res h
    simp only [parse_short_options] at h
    cases h
    exact ⟨[], by simp, by simp⟩
  | cons c rest ih =>
    intro acc res h
    simp only [parse_short_options] at h
    by_cases hc : c = '='
    · rw [if_pos hc] at h
      exact Except.noConfusion h
    · rw [if_neg hc] at h
      cases rest with
      | nil =>
        dsimp only [] at h
        cases h
        refine ⟨[Argument.Flag [c]], rfl, ?_⟩
        intro a ha
        rw [List.mem_singleton] at ha
        subst ha
        exact ⟨by simp [namesNonEmpty], fun n hn => by
          cases hn; rfl⟩
      | cons d rest2 =>
        dsimp only [] at h
        by_cases hd : d = '='
        · rw [if_pos hd] at h
          cases h
          refine ⟨[Argument.Attribute [c] rest2], rfl, ?_⟩
          intro a ha
          rw [List.mem_singleton] at ha
          subst ha
          exact ⟨by simp [namesNonEmpty], fun n hn => by cases hn⟩
        · rw [if_neg hd] at h
          obtain ⟨new, hres, hall⟩ := ih (acc ++ [Argument.Flag [c]]) res h
          refine ⟨Argument.Flag [c] :: new, by simp [hres], ?_⟩
          intro a ha
          rw [List.mem_cons] at ha
          rcases ha with rfl | ha
          · exact ⟨by simp [namesNonEmpty], fun n hn => by cases hn; rfl⟩
          · exact hall a ha

/-- Every argument `parse_option` (in either mode, with a non-empty
accumulated name in loop mode) appends past the accumulator satisfies the
name invariant. -/
theorem parse_option_aux_ok :
    ∀ (iter : List Char) (acc : List Argument) (st : Option (List Char))
      (res : List Argument),
      (∀ opt, st = some opt → opt ≠ []) →
      parse_option_aux acc st iter = .ok res →
      ∃ new, res = acc ++ new ∧ ∀ a ∈ new, namesNonEmpty a := by
  intro iter
  induction iter with
  | nil =>
    intro acc st res hst h
    cases st with
    | none => exact Except.noConfusion h
    | some opt =>
      simp only [parse_option_aux] at h
      cases h
      refine ⟨[Argument.Flag opt], rfl, ?_⟩
      intro a ha
      rw [List.mem_singleton] at ha
      subst ha
      exact hst opt rfl
  | cons c rest ih =>
    intro acc st res hst h
    simp only [parse_option_aux] at h
    cases st with
    | none =>
      dsimp only [] at h
      by_cases h1 : c = '+'
      · rw [if_pos h1] at h
        exact Except.noConfusion h
      · rw [if_neg h1] at h
        by_cases h2 : c = '='
        · rw [if_pos h2] at h
          exact Except.noConfusion h
        · rw [if_neg h2] at h
          exact ih acc (some [c]) res (by simp) h
    | some opt =>
      dsimp only [] at h
      have hopt : opt ≠ [] := hst opt rfl
      by_cases h1 : c = '+'
      · rw [if_pos h1] at h
        obtain ⟨new, hres, hall⟩ :=
          ih (acc ++ [Argument.Flag opt]) none res (by simp) h
        refine ⟨Argument.Flag opt :: new, by simp [hres], ?_⟩
        intro a ha
        rw [List.mem_cons] at ha
        rcases ha with rfl | ha
        · exact hopt
        · exact hall a ha
      · rw [if_neg h1] at h
        by_cases h2 : c = '='
        · rw [if_pos h2] at h
          cases h
          refine ⟨[Argument.Attribute opt rest], rfl, ?_⟩
          intro a ha
          rw [List.mem_singleton] at ha
          subst ha
          exact hopt
        · rw [if_neg h2] at h
          exact ih acc (some (opt ++ [c])) res (by simp) h

/-- Every argument the `parse_argument` loop appends past the accumulator
satisfies the name invariant, provided the running buffer is non-empty. -/
theorem parse_argument_loop_ok :
    ∀ (iter : List Char) (acc : List Argument) (buf : List Char)
      (res : List Argument),
      buf ≠ [] →
      parse_argument_loop acc buf iter = .ok res →
      ∃ new, res = acc ++ new ∧ ∀ a ∈ new, namesNonEmpty a := by
  intro iter
  induction iter with
  | nil =>
    intro acc buf res _ h
    simp only [parse_argument_loop] at h
    cases h
    exact ⟨[Argument.Operand buf], rfl, by
      intro a ha
      rw [List.mem_singleton] at ha
      subst ha
      exact trivial⟩
  | cons c rest ih =>
    intro acc buf res hbuf h
    simp only [parse_argument_loop] at h
    by_cases h1 : c = '+'
    · rw [if_pos h1] at h
      obtain ⟨new, hres, hall⟩ :=
        parse_option_aux_ok rest (acc ++ [Argument.Flag buf]) none res
          (by simp) h
      refine ⟨Argument.Flag buf :: new, by simp [hres], ?_⟩
      intro a ha
      rw [List.mem_cons] at ha
      rcases ha with rfl | ha
      · exact hbuf
      · exact hall a ha
    · rw [if_neg h1] at h
      by_cases h2 : c = '='
      · rw [if_pos h2] at h
        cases h
        refine ⟨[Argument.Attribute buf rest], rfl, ?_⟩
        intro a ha
        rw [List.mem_singleton] at ha
        subst ha
        exact hbuf
      · rw [if_neg h2] at h
        exact ih acc (buf ++ [c]) res (by simp) h

/-- Every argument `parse_argument` appends past the accumulator
satisfies the name invariant. -/
theorem parse_argument_ok (iter : List Char) (acc res : List Argument)
    (h : parse_argument acc iter = .ok res) :
    ∃ new, res = acc ++ new ∧ ∀ a ∈ new, namesNonEmpty a := by
  cases iter with
  | nil =>
    simp only [parse_argument] at h
    cases h
    exact ⟨[Argument.Operand []], rfl, by
      intro a ha
      rw [List.mem_singleton] at ha
      subst ha
      exact trivial⟩
  | cons c rest =>
    simp only [parse_argument] at h
    by_cases h1 : c = '+'
    · rw [if_pos h1] at h
      exact Except.noConfusion h
    · rw [if_neg h1] at h
      by_cases h2 : c = '='
      · rw [if_pos h2] at h
        exact Except.noConfusion h
      · rw [if_neg h2] at h
        exact parse_argument_loop_ok rest acc [c] res (by simp) h

/-- Every argument the dispatch loop appends past the accumulator
satisfies the name invariant. -/
theorem parse_arguments_loop_ok :
    ∀ (args : List (List Char)) (acc res : List Argument),
      parse_arguments_loop acc args = .ok res →
      ∃ new, res = acc ++ new ∧ ∀ a ∈ new, namesNonEmpty a := by
  intro args
  induction args with
  | nil =>
    intro acc res h
    simp only [parse_arguments_loop] at h
    cases h
    exact ⟨[], by simp, by simp⟩
  | cons arg rest ih =>
    intro acc res h
    simp only [parse_arguments_loop] at h
    cases arg with
    | nil =>
      dsimp only [] at h
      obtain ⟨new, hres, hall⟩ := ih (acc ++ [Argument.Operand []]) res h
      refine ⟨Argument.Operand [] :: new, by simp [hres], ?_⟩
      intro a ha
      rw [List.mem_cons] at ha
      rcases ha with rfl | ha
      · exact trivial
      · exact hall a ha
    | cons c iter =>
      dsimp only [] at h
      by_cases hc : c = '-'
      · rw [if_pos hc] at h
        cases iter with
        | nil =>
          dsimp only [] at h
          cases h
          refine ⟨rest.map Argument.Operand, rfl, ?_⟩
          intro a ha
          rw [List.mem_map] at ha
          obtain ⟨t, _, rfl⟩ := ha
          exact trivial
        | cons d iter2 =>
          dsimp only [] at h
          by_cases hd : d = '-'
          · rw [if_pos hd] at h
            cases iter2 with
            | nil =>
              dsimp only [] at h
              cases h
              refine ⟨rest.map Argument.Operand, rfl, ?_⟩
              intro a ha
              rw [List.mem_map] at ha
              obtain ⟨t, _, rfl⟩ := ha
              exact trivial
            | cons e iter3 =>
              dsimp only [] at h
              cases hpo : parse_option acc (e :: iter3) with
              | error err => rw [hpo] at h; exact Except.noConfusion h
              | ok mid =>
                rw [hpo] at h
                rw [ok_bind] at h
                obtain ⟨new1, hmid, hall1⟩ :=
                  parse_option_aux_ok (e :: iter3) acc none mid
                    (by simp) hpo
                obtain ⟨new2, hres, hall2⟩ := ih mid res h
                refine ⟨new1 ++ new2, by simp [hres, hmid], ?_⟩
                intro a ha
                rw [List.mem_append] at ha
                rcases ha with ha | ha
                · exact hall1 a ha
                · exact hall2 a ha
          · rw [if_neg hd] at h
            cases hpo : parse_short_options acc (d :: iter2) with
            | error err => rw [hpo] at h; exact Except.noConfusion h
            | ok mid =>
              rw [hpo] at h
              rw [ok_bind] at h
              obtain ⟨new1, hmid, hall1⟩ :=
                parse_short_options_ok (d :: iter2) acc mid hpo
              obtain ⟨new2, hres, hall2⟩ := ih mid res h
              refine ⟨new1 ++ new2, by simp [hres, hmid], ?_⟩
              intro a ha
              rw [List.mem_append] at ha
              rcases ha with ha | ha
              · exact (hall1 a ha).1
              · exact hall2 a ha
      · rw [if_neg hc] at h
        by_cases hp : c = '+'
        · rw [if_pos hp] at h
          cases iter with
          | nil =>
            dsimp only [] at h
            cases h
            refine ⟨rest.map Argument.Operand, rfl, ?_⟩
            intro a ha
            rw [List.mem_map] at ha
            obtain ⟨t, _, rfl⟩ := ha
            exact trivial
          | cons d iter2 =>
            dsimp only [] at h
            cases hpo : parse_option acc (d :: iter2) with
            | error err => rw [hpo] at h; exact Except.noConfusion h
            | ok mid =>
              rw [hpo] at h
              rw [ok_bind] at h
              obtain ⟨new1, hmid, hall1⟩ :=
                parse_option_aux_ok (d :: iter2) acc none mid (by simp) hpo
              obtain ⟨new2, hres, hall2⟩ := ih mid res h
              refine ⟨new1 ++ new2, by simp [hres, hmid], ?_⟩
              intro a ha
              rw [List.mem_append] at ha
              rcases ha with ha | ha
              · exact hall1 a ha
              · exact hall2 a ha
        · rw [if_neg hp] at h
          cases hpa : parse_argument acc (c :: iter) with
          | error err => rw [hpa] at h; exact Except.noConfusion h
          | ok mid =>
            rw [hpa] at h
            rw [ok_bind] at h
            obtain ⟨new1, hmid, hall1⟩ :=
              parse_argument_ok (c :: iter) acc mid hpa
            obtain ⟨new2, hres, hall2⟩ := ih mid res h
            refine ⟨new1 ++ new2, by simp [hres, hmid], ?_⟩
            intro a ha
            rw [List.mem_append] at ha
            rcases ha with ha | ha
            · exact hall1 a ha
            · exact hall2 a ha

/-- C8: in every successful parse every `Attribute` name and every `Flag`
name is non-empty, and every `Flag` the short-option routine appends has
a name of exactly one character. -/
theorem parse_name_invariants :
    (∀ args res, parse_arguments args = .ok res →
      ∀ a ∈ res, namesNonEmpty a) ∧
    (∀ acc iter res, parse_short_options acc iter = .ok res →
      ∃ new, res = acc ++ new ∧
        ∀ a ∈ new, namesNonEmpty a ∧ shortFlagOne a) := by
  constructor
  · intro args res h a ha
    obtain ⟨new, hres, hall⟩ := parse_arguments_loop_ok args [] res h
    rw [List.nil_append] at hres
    exact hall a (hres ▸ ha)
  · intro acc iter res h
    exact parse_short_options_ok iter acc res h

/-- Witness for C8: applied to the parse of `["-a"]`. -/
theorem parse_name_invariants_witness :
    namesNonEmpty (Argument.Flag ['a']) :=
  parse_name_invariants.1 [['-', 'a']] [Argument.Flag ['a']] rfl
    (Argument.Flag ['a']) (List.mem_singleton.mpr rfl)

/-- Any fuel strictly larger than the remaining token length lets the
fuelled long-option routine finish with the unfuelled routine's answer:
every recursive call consumes exactly one character of the token. -/
theorem parse_option_fuel_enough :
    ∀ (fuel : Nat) (iter : List Char), iter.length < fuel →
      ∀ (acc : List Argument) (st : Option (List Char)),
        parse_option_fuel fuel acc st iter =
          some (parse_option_aux acc st iter) := by
  intro fuel
  induction fuel with
  | zero => intro iter h; omega
  | succ fuel ih =>
    intro iter h acc st
    cases iter with
    | nil =>
      cases st <;> rfl
    | cons c rest =>
      have hlen : rest.length < fuel := by
        simp only [List.length_cons] at h
        omega
      cases st with
      | none =>
        by_cases h1 : c = '+'
        · simp [parse_option_fuel, parse_option_aux, h1]
        · by_cases h2 : c = '='
          · simp [parse_option_fuel, parse_option_aux, h1, h2]
          · simp only [parse_option_fuel, parse_option_aux]
            rw [if_neg h1, if_neg h2, if_neg h1, if_neg h2]
            exact ih rest hlen acc (some [c])
      | some opt =>
        by_cases h1 : c = '+'
        · simp only [parse_option_fuel, parse_option_aux]
          rw [if_pos h1, if_pos h1]
          exact ih rest hlen (acc ++ [Argument.Flag opt]) none
        · by_cases h2 : c = '='
          · simp [parse_option_fuel, parse_option_aux, h1, h2]
          · simp only [parse_option_fuel, parse_option_aux]
            rw [if_neg h1, if_neg h2, if_neg h1, if_neg h2]
            exact ih rest hlen acc (some (opt ++ [c]))

/-- C9: the long-option routine (and its `+`-chain self-recursion)
terminates on every token, with recursion depth bounded by the token
length: fuel `iter.length + 1` already suffices for the fuelled variant
to return the total routine's result, in both entry and loop mode. -/
theorem parse_option_terminates (acc : List Argument)
    (st : Option (List Char)) (iter : List Char) :
    parse_option_fuel (iter.length + 1) acc st iter =
      some (parse_option_aux acc st iter) ∧
    parse_option_fuel (iter.length + 1) acc none iter =
      some (parse_option acc iter) :=
  ⟨parse_option_fuel_enough (iter.length + 1) iter (by omega) acc st,
    parse_option_fuel_enough (iter.length + 1) iter (by omega) acc none⟩

end Zeroarg
